import Mathlib

/-!
# Verification of the kindle-to-x pipeline (`main.py`)

A shallow embedding of the bookkeeping logic of `main.py`: the
highlight deduplication and grouping of `get_new_highlights`, the text
sanitizer `clean_post`, the numbered-list reply parse of
`generate_posts`, and the persisted-state transitions of
`run_generate`, `run_post`, `run_post_interview` and
`run_post_standalone`.  External effects (HTTP fetches, the language
model, the publish call) enter as explicit parameters; the persisted
JSON state is a Lean structure.  Python strings are modelled as `String`
(compared lexicographically by code point, as Python does) or as
`List Char` where character-level recursion is needed; the whitespace
classes are restricted to their ASCII members, which is all the data in
this program exercises.
-/

/-- ASCII decimal digit, the `\d` class restricted to ASCII (Python's
`\d` on `str` also accepts Unicode digits; none occur here). -/
def isDig (c : Char) : Bool := '0' ≤ c && c ≤ '9'

/-- ASCII whitespace: the characters Python's `str.strip()` and the
regex class `\s` treat as whitespace, restricted to ASCII. -/
def isWs (c : Char) : Bool :=
  c = ' ' || c = '\t' || c = '\n' || c = '\x0d' || c = '\x0b' || c = '\x0c'

/-- Python `str.strip()` on a character list: drop whitespace from both
ends. -/
def pyStrip (s : List Char) : List Char :=
  ((s.dropWhile isWs).reverse.dropWhile isWs).reverse

/-- Python `str.strip()` on `String`. -/
def pyStripS (s : String) : String := String.mk (pyStrip s.data)

/-- Step 1 of `clean_post`: `post.replace("—", "-").replace("–", "-")`
(em dash and en dash are single characters, so substring replacement is a map). -/
def replaceDashes (s : List Char) : List Char :=
  s.map (fun c => if c = '—' || c = '–' then '-' else c)

/-- Step 2 of `clean_post`: `re.sub(r'[^\x00-\x7F]+', '', post)` deletes
every character above `\x7F`. -/
def stripNonAscii (s : List Char) : List Char :=
  s.filter (fun c => c.toNat ≤ 0x7F)

/-- Step 3 of `clean_post`: `re.sub(r' +', ' ', post)` collapses each run
of space characters (exactly `' '`, not other whitespace) to one space:
a space immediately followed by another space is dropped, so each
maximal run keeps exactly its last space. -/
def collapseSpaces : List Char → List Char
  | [] => []
  | [c] => [c]
  | c :: d :: rest =>
    if c = ' ' && d = ' ' then collapseSpaces (d :: rest)
    else c :: collapseSpaces (d :: rest)

/-- `clean_post` from `main.py`: dash replacement, non-ASCII removal,
space-run collapse, then `str.strip()`. -/
def clean_post (s : List Char) : List Char :=
  pyStrip (collapseSpaces (stripNonAscii (replaceDashes s)))

/-- `clean_post` on `String`. -/
def clean_postS (s : String) : String := String.mk (clean_post s.data)

/-- Whether a character list contains two consecutive space characters
(the pattern `re.sub(r' +', ' ', ...)` is meant to eliminate). -/
def hasDoubleSpace : List Char → Bool
  | [] => false
  | [_] => false
  | c :: d :: rest => (c = ' ' && d = ' ') || hasDoubleSpace (d :: rest)

/-- A fetched highlight as `get_new_highlights` reads it from the
Readwise JSON: `text`, `book_id` (already through `str(...)`), and the
two timestamp fields consulted by
`h.get("highlighted_at") or h.get("updated") or ""`.  A missing field is
the empty string. -/
structure Highlight where
  text : String
  book_id : String
  highlighted_at : String
  updated : String
deriving DecidableEq, Repr

/-- The timestamp the grouping loop uses for a highlight:
`h.get("highlighted_at") or h.get("updated") or ""` (Python `or` takes
the first non-empty string). -/
def hlTs (h : Highlight) : String :=
  if h.highlighted_at ≠ "" then h.highlighted_at else h.updated

/-- The deduplication step of `get_new_highlights` (lines 139-140):
`new_results = [h for h in results if h.get("text", "").strip() not in seen_set]`.
The seen set is modelled by list membership. -/
def dedup (results : List Highlight) (seen : List String) : List Highlight :=
  results.filter (fun h => decide (pyStripS h.text ∉ seen))

/-- One group of the `books` dictionary built by `get_new_highlights`
(lines 146-155): the book's unseen highlight texts (already trimmed, in
fetch order) and the running maximum timestamp `latest`. -/
structure BookGroup where
  highlights : List String
  latest : String
deriving DecidableEq, Repr

/-- One iteration of the grouping loop body for a highlight with book id
`bid`, trimmed text `txt` and timestamp `ts`: create the entry (Python
dicts keep insertion order, so a new key goes at the end), append the
text, and raise `latest` when `ts > latest`. -/
def insertHL (books : List (String × BookGroup)) (bid txt ts : String) :
    List (String × BookGroup) :=
  match books with
  | [] => [(bid, { highlights := [txt], latest := ts })]
  | (k, g) :: rest =>
    if k = bid then
      (k, { highlights := g.highlights ++ [txt],
            latest := if g.latest < ts then ts else g.latest }) :: rest
    else (k, g) :: insertHL rest bid txt ts

/-- The full grouping loop of `get_new_highlights` over the deduplicated
results. -/
def buildBooks (hs : List Highlight) : List (String × BookGroup) :=
  hs.foldl (fun b h => insertHL b h.book_id (pyStripS h.text) (hlTs h)) []

/-- `max(books, key=lambda b: books[b]["latest"])`: fold over the dict
entries in insertion order, replacing the current best only on a strictly
larger key, exactly as Python's `max` does (so ties keep the earlier
entry). -/
def pickMax (best : String × BookGroup) :
    List (String × BookGroup) → String × BookGroup
  | [] => best
  | x :: rest => pickMax (if best.2.latest < x.2.latest then x else best) rest

/-- The pure core of `get_new_highlights` after the HTTP fetch: the
empty-results early return, the dedup against the seen set, the
no-new-highlights early return, and the grouping plus most-recent-book
selection.  Returns the selected book id and its (trimmed) unseen
highlight texts; the title/author come from a separate external request
and are not part of this core.  (`buildBooks` of a non-empty list is
never `[]`; that branch only mirrors the shape of the match.) -/
def get_new_highlights_core (results : List Highlight) (seen : List String) :
    Option (String × List String) :=
  if results = [] then none
  else
    let new_results := dedup results seen
    if new_results = [] then none
    else
      match buildBooks new_results with
      | [] => none
      | g :: gs =>
        let sel := pickMax g gs
        some (sel.1, sel.2.highlights)

/-- The status-code handling of the Readwise fetch in
`get_new_highlights` (lines 129-130): any response other than 200 raises
`Exception(f"Readwise API error: ...")`.  There is no rate-limit branch
and no retry. -/
def readwiseStatusCheck (status : Nat) (text : String) : Except String Unit :=
  if status ≠ 200 then
    Except.error ("Readwise API error: " ++ toString status ++ " - " ++ text)
  else Except.ok ()

/-!
## The numbered-list parse

`generate_posts` (and its siblings) split the model reply with
`re.findall(r'\d+\.\s(.+?)(?=\n\d+\.|$)', raw, re.DOTALL)`.
The embedding mirrors the regex piece by piece: `numTag` is the prefix
`\d+\.\s` (`\d+` is greedy, but digits, `.` and `\s` are disjoint
classes, so greedy matching without backtracking is exact); `lookNum`
is the lookahead alternative `\n\d+\.`; `endAnchor` is `$` without
`MULTILINE` (end of input, or just before a final newline); `captureGo`
is the lazy group `(.+?)` which stops at the first position where the
lookahead holds; `findallNum` is the left-to-right scan that resumes
after each match (the lookahead is zero-width, so scanning resumes at
the position the capture stopped). -/

/-- Match `\d+\.\s` at the start of `s`; `some rest` is the input after
the consumed prefix. -/
def numTag (s : List Char) : Option (List Char) :=
  if s.takeWhile isDig = [] then none
  else
    match s.dropWhile isDig with
    | '.' :: c :: r => if isWs c then some r else none
    | _ => none

/-- The lookahead `\n\d+\.` at the current position. -/
def lookNum (s : List Char) : Bool :=
  match s with
  | '\n' :: r =>
    !(r.takeWhile isDig).isEmpty &&
      (match r.dropWhile isDig with
       | '.' :: _ => true
       | _ => false)
  | _ => false

/-- The anchor `$` (no `MULTILINE`): end of input, or immediately before
a trailing final newline. -/
def endAnchor (s : List Char) : Bool :=
  s = [] || s = ['\n']

/-- The lazy capture `(.+?)(?=\n\d+\.|$)` after at least one character
has been taken: extend the capture one character at a time and stop at
the first position satisfying the lookahead. -/
def captureGo (acc : List Char) : List Char → Option (List Char × List Char)
  | [] => if lookNum [] || endAnchor [] then some (acc, []) else none
  | c :: rest =>
    if lookNum (c :: rest) || endAnchor (c :: rest) then some (acc, c :: rest)
    else captureGo (acc ++ [c]) rest

/-- The capture group `(.+?)`: at least one character (with `DOTALL`,
any character), then lazily up to the lookahead. -/
def captureLazy : List Char → Option (List Char × List Char)
  | [] => none
  | c :: rest => captureGo [c] rest

/-- `re.findall` for the post-splitting pattern, fuelled so the
recursion is structural: scan left to right; at each position try the
whole pattern, emit the captured group on success and resume after it,
otherwise advance one character.  Each step strictly shortens the input
(`numTag_len`, `captureLazy_len`), so fuel equal to the input length is
enough (`findallGo_congr`). -/
def findallGo : Nat → List Char → List String
  | 0, _ => []
  | _ + 1, [] => []
  | fuel + 1, c :: t =>
    match numTag (c :: t) with
    | none => findallGo fuel t
    | some rest =>
      match captureLazy rest with
      | none => findallGo fuel t
      | some (g, after) => String.mk g :: findallGo fuel after

/-- The scan over the whole reply. -/
def findallNum (s : List Char) : List String := findallGo s.length s

/-- `generate_posts`' handling of the model reply (lines 219-221):
`posts = re.findall(...)`; `return [clean_post(p.strip()) for p in posts if p.strip()]`. -/
def parse_posts (raw : String) : List String :=
  ((findallNum raw.data).filter (fun p => pyStripS p ≠ "")).map
    (fun p => String.mk (clean_post (pyStrip p.data)))

/-- Whether the input contains, at any position, the numbered-item
marker `\d+\.\s` (the only way any match of the pattern can start). -/
def hasNumMark : List Char → Bool
  | [] => false
  | c :: t => (numTag (c :: t)).isSome || hasNumMark t

/-!
## Persisted state and the mode transitions

The JSON state file holds `seen_highlights`, `book_threads`,
`pending_tweets` and `interview.pending_tweets` (the interview
metadata — issue number, questions, ratings, voice examples — is not
consulted by any claim and is omitted).  Each mode loads the file,
mutates in memory, and saves at most once; the external calls (fetch,
generation, publish) are parameters of the transition functions. -/

/-- One entry of `pending_tweets` (or of `interview.pending_tweets`) as
built by `run_generate`.  `kind` models the JSON key `"type"`
(`"book"`, `"standalone"` or `"interview"`); interview entries carry no
`book_id`/`book_title` key, modelled as `none`. -/
structure PendingPost where
  order : Nat
  text : String
  posted : Bool
  tweet_id : Option String
  book_id : Option String
  book_title : Option String
  kind : String
deriving DecidableEq, Repr

/-- One entry of `book_threads`.  `run_post` creates the record with
`{"title": ..., "first_tweet_id": ...}` and then immediately assigns
`last_tweet_id`, so a persisted record always has all three fields;
`title` is the `book_title` of the posted item, which may be absent. -/
structure BookThread where
  title : Option String
  first_tweet_id : String
  last_tweet_id : String
deriving DecidableEq, Repr

/-- The persisted state (`state.json`) restricted to the fields the
claims are about. -/
structure ProgState where
  seen_highlights : List String
  book_threads : List (Option String × BookThread)
  pending_tweets : List PendingPost
  interview_pending : List PendingPost
deriving DecidableEq, Repr

/-- The fresh state `load_state` returns when the file is absent or
corrupt. -/
def initState : ProgState :=
  { seen_highlights := [], book_threads := [], pending_tweets := [],
    interview_pending := [] }

/-- Python dict lookup `book_threads.get(book_id, {})` presence test on
the insertion-ordered association list (dict keys are unique). -/
def btLookup (bts : List (Option String × BookThread)) (k : Option String) :
    Option BookThread :=
  match bts with
  | [] => none
  | (k', v) :: rest => if k' = k then some v else btLookup rest k

/-- The thread update of `run_post` (lines 751-753): when the key is
absent, `book_threads[book_id] = {"title": ..., "first_tweet_id": str(tweet_id)}`
appends a new entry (dicts keep insertion order) and the next line sets
`last_tweet_id`; when present, only `last_tweet_id` is assigned. -/
def updateThreads (bts : List (Option String × BookThread)) (k : Option String)
    (title : Option String) (tid : String) : List (Option String × BookThread) :=
  match btLookup bts k with
  | none =>
    bts ++ [(k, { title := title, first_tweet_id := tid, last_tweet_id := tid })]
  | some _ =>
    bts.map (fun p =>
      if p.1 = k then (p.1, { p.2 with last_tweet_id := tid }) else p)

/-- `run_generate` (lines 597-713) with its external interactions as
parameters: `fetch` is what `get_new_highlights` returned (`none` for
the all-`None` early returns, otherwise book id, externally fetched
title, and the non-empty unseen highlight list), `posts` the parsed
`generate_posts` output, `standalone` the `generate_standalone_tweet`
output, and `ivTweets` the parsed `generate_interview_tweets` output
when an answer comment was found (`none` when there is no open issue or
no answer, in which case `interview["pending_tweets"]` is left alone).
When highlights were found, `pending_tweets` is assigned wholesale to
the freshly built list and `seen_highlights` becomes
`list(set(seen_highlights + highlights))` (a set: its Python iteration
order is unspecified, modelled here by `List.dedup`; only membership is
ever used). -/
def run_generate (st : ProgState) (fetch : Option (String × String × List String))
    (posts : List String) (standalone : String) (ivTweets : Option (List String)) :
    ProgState :=
  let st1 :=
    match fetch with
    | none => st
    | some (bid, title, hls) =>
      if hls = [] then st
      else
        { st with
          pending_tweets :=
            (List.enum posts).map (fun ip =>
              { order := ip.1, text := ip.2, posted := false, tweet_id := none,
                book_id := some bid, book_title := some title, kind := "book" }) ++
            [{ order := posts.length, text := standalone, posted := false,
               tweet_id := none, book_id := some bid, book_title := some title,
               kind := "standalone" }],
          seen_highlights := (st.seen_highlights ++ hls).dedup }
  match ivTweets with
  | none => st1
  | some ts =>
    { st1 with
      interview_pending :=
        (List.enum ts).map (fun ip =>
          { order := ip.1, text := ip.2, posted := false, tweet_id := none,
            book_id := none, book_title := none, kind := "interview" }) }

/-- The selection of `run_post` (line 724):
`[t for t in pending if not t.get("posted") and t.get("type") == "book"]`. -/
def bookUnposted (st : ProgState) : List PendingPost :=
  st.pending_tweets.filter (fun t => !t.posted && decide (t.kind = "book"))

/-- `run_post` (lines 717-761).  `pub` is the outcome of the
`post_single_tweet` call (the new tweet id, or the raised exception).
The first component of the result is the persisted file after the
invocation: the source mutates in-memory copies and calls `save_state`
only after a successful publish, so a raised publish error (re-raised by
line 761) leaves the file exactly as loaded; when there is nothing
unposted the function returns early without writing, which also leaves
the file as loaded.  On success every pending entry whose `order`
equals the selected entry's `order` gets `posted = True` and
`tweet_id = str(tweet_id)` together (the marking loop, lines 746-749,
does not re-check the `type`), and the book thread is updated. -/
def run_post (st : ProgState) (pub : Except String String) :
    ProgState × Except String Unit :=
  match bookUnposted st with
  | [] => (st, Except.ok ())
  | tweet :: _ =>
    match pub with
    | Except.error e => (st, Except.error e)
    | Except.ok tid =>
      ({ st with
         pending_tweets :=
           st.pending_tweets.map (fun t =>
             if t.order = tweet.order then
               { t with posted := true, tweet_id := some tid }
             else t),
         book_threads :=
           updateThreads st.book_threads tweet.book_id tweet.book_title tid },
       Except.ok ())

/-- The selection of `run_post_interview` (line 771):
`[t for t in pending if not t.get("posted")]` over the interview queue. -/
def ivUnposted (st : ProgState) : List PendingPost :=
  st.interview_pending.filter (fun t => !t.posted)

/-- `run_post_interview` (lines 764-827): like `run_post` but over
`interview["pending_tweets"]`, with no thread-pointer update (the
reply-to id is looked up among the pending items and does not touch the
state), and the same save-only-on-success behaviour. -/
def run_post_interview (st : ProgState) (pub : Except String String) :
    ProgState × Except String Unit :=
  match ivUnposted st with
  | [] => (st, Except.ok ())
  | tweet :: _ =>
    match pub with
    | Except.error e => (st, Except.error e)
    | Except.ok tid =>
      ({ st with
         interview_pending :=
           st.interview_pending.map (fun t =>
             if t.order = tweet.order then
               { t with posted := true, tweet_id := some tid }
             else t) },
       Except.ok ())

/-- The selection of `run_post_standalone` (line 836):
`[t for t in pending if not t.get("posted") and t.get("type") == "standalone"]`. -/
def saUnposted (st : ProgState) : List PendingPost :=
  st.pending_tweets.filter (fun t => !t.posted && decide (t.kind = "standalone"))

/-- `run_post_standalone` (lines 830-862): selects the first unposted
standalone item; its marking loop (lines 852-855) additionally re-checks
`type == "standalone"`. -/
def run_post_standalone (st : ProgState) (pub : Except String String) :
    ProgState × Except String Unit :=
  match saUnposted st with
  | [] => (st, Except.ok ())
  | tweet :: _ =>
    match pub with
    | Except.error e => (st, Except.error e)
    | Except.ok tid =>
      ({ st with
         pending_tweets :=
           st.pending_tweets.map (fun t =>
             if t.order = tweet.order ∧ t.kind = "standalone" then
               { t with posted := true, tweet_id := some tid }
             else t) },
       Except.ok ())

/-- One scheduler invocation of any mode, with arbitrary external
inputs.  (`interview_ask` touches only interview metadata outside the
modelled fields.) -/
inductive Step : ProgState → ProgState → Prop
  | gen (st : ProgState) (fetch : Option (String × String × List String))
      (posts : List String) (standalone : String) (ivT : Option (List String)) :
      Step st (run_generate st fetch posts standalone ivT)
  | post (st : ProgState) (pub : Except String String) :
      Step st (run_post st pub).1
  | postInterview (st : ProgState) (pub : Except String String) :
      Step st (run_post_interview st pub).1
  | postStandalone (st : ProgState) (pub : Except String String) :
      Step st (run_post_standalone st pub).1

/-- States the pipeline can reach from a fresh state file through any
sequence of generate and post invocations. -/
def Reachable (st : ProgState) : Prop :=
  Relation.ReflTransGen Step initState st

/-- The queue invariant: every pending item (book, standalone or
interview) marked `posted` carries a tweet id. -/
def pendingInv (st : ProgState) : Prop :=
  ∀ p, p ∈ st.pending_tweets ∨ p ∈ st.interview_pending →
    p.posted = true → p.tweet_id ≠ none

/-- Fixture: an unposted book item left over from a previous cycle. -/
def sampleOldPost : PendingPost :=
  { order := 0, text := "old leftover", posted := false, tweet_id := none,
    book_id := some "7", book_title := some "Old Book", kind := "book" }

/-- Fixture: a loaded state with one unposted book item, one seen
highlight text and no threads. -/
def sampleState : ProgState :=
  { seen_highlights := ["x"], book_threads := [], pending_tweets := [sampleOldPost],
    interview_pending := [] }

/-- Fixture: a fetch result whose only highlight is already seen (its
trimmed text is `"x"`). -/
def sampleResults : List Highlight :=
  [{ text := " x ", book_id := "1", highlighted_at := "2024-01-01", updated := "" }]

/-- Fixture: unseen highlights from two books with distinct timestamps. -/
def sampleHs : List Highlight :=
  [{ text := "a", book_id := "1", highlighted_at := "2024-01-01", updated := "" },
   { text := "b", book_id := "2", highlighted_at := "2024-02-01", updated := "" }]

/-!
## Supporting lemmas
-/

theorem mem_pyStrip {c : Char} {l : List Char} (h : c ∈ pyStrip l) : c ∈ l := by
  unfold pyStrip at h
  rw [List.mem_reverse] at h
  have h1 := (List.dropWhile_sublist _).subset h
  rw [List.mem_reverse] at h1
  exact (List.dropWhile_sublist _).subset h1

theorem mem_collapseSpaces {c : Char} :
    ∀ {l : List Char}, c ∈ collapseSpaces l → c ∈ l := by
  intro l
  induction l with
  | nil => simp [collapseSpaces]
  | cons a t ih =>
    cases t with
    | nil => simp [collapseSpaces]
    | cons b r =>
      simp only [collapseSpaces]
      split
      · intro h
        exact List.mem_cons_of_mem a (ih h)
      · intro h
        rcases List.mem_cons.mp h with h | h
        · exact h ▸ List.mem_cons_self _ _
        · exact List.mem_cons_of_mem a (ih h)

theorem clean_post_ascii {s : List Char} {c : Char} (h : c ∈ clean_post s) :
    c.toNat ≤ 0x7F := by
  unfold clean_post at h
  have h1 := mem_collapseSpaces (mem_pyStrip h)
  have h2 := List.mem_filter.mp h1
  simpa using h2.2

theorem collapseSpaces_cons_ne_space {d : Char} (hd : d ≠ ' ') (rest : List Char) :
    ∃ tl, collapseSpaces (d :: rest) = d :: tl := by
  cases rest with
  | nil => exact ⟨[], rfl⟩
  | cons e r =>
    refine ⟨collapseSpaces (e :: r), ?_⟩
    simp [collapseSpaces, hd]

theorem collapseSpaces_noDouble :
    ∀ l : List Char, hasDoubleSpace (collapseSpaces l) = false := by
  intro l
  induction l with
  | nil => rfl
  | cons a t ih =>
    cases t with
    | nil => rfl
    | cons b r =>
      by_cases hab : a = ' ' ∧ b = ' '
      · have hcs : collapseSpaces (a :: b :: r) = collapseSpaces (b :: r) := by
          simp [collapseSpaces, hab.1, hab.2]
        rw [hcs]
        exact ih
      · have hcs : collapseSpaces (a :: b :: r) = a :: collapseSpaces (b :: r) := by
          simp only [collapseSpaces, ite_eq_right_iff]
          intro hc
          rw [Bool.and_eq_true, decide_eq_true_eq, decide_eq_true_eq] at hc
          exact absurd hc hab
        rw [hcs]
        cases hcb : collapseSpaces (b :: r) with
        | nil => rfl
        | cons x xs =>
          have hx : ¬(a = ' ' ∧ x = ' ') := by
            rintro ⟨ha, hxsp⟩
            have hb : b ≠ ' ' := fun hb => hab ⟨ha, hb⟩
            obtain ⟨tl, htl⟩ := collapseSpaces_cons_ne_space hb r
            rw [htl] at hcb
            cases hcb
            exact hb hxsp
          have htail : hasDoubleSpace (x :: xs) = false := hcb ▸ ih
          simp only [hasDoubleSpace, htail, Bool.or_false, Bool.and_eq_false_iff]
          rcases Decidable.not_and_iff_or_not.mp hx with h | h
          · exact Or.inl (by simpa using h)
          · exact Or.inr (by simpa using h)

theorem hasDoubleSpace_cons_of_tail {c : Char} {tl : List Char}
    (h : hasDoubleSpace tl = true) : hasDoubleSpace (c :: tl) = true := by
  cases tl with
  | nil => simp [hasDoubleSpace] at h
  | cons d r => simp [hasDoubleSpace, h]

theorem infix_of_hasDoubleSpace :
    ∀ {l : List Char}, hasDoubleSpace l = true → [' ', ' '] <:+: l := by
  intro l
  induction l with
  | nil => simp [hasDoubleSpace]
  | cons c tl ih =>
    cases tl with
    | nil => simp [hasDoubleSpace]
    | cons d r =>
      intro h
      rw [hasDoubleSpace, Bool.or_eq_true] at h
      rcases h with h | h
      · rw [Bool.and_eq_true, decide_eq_true_eq, decide_eq_true_eq] at h
        exact ⟨[], r, by simp [h.1, h.2]⟩
      · exact List.infix_cons (ih h)

theorem hasDoubleSpace_of_infix :
    ∀ {l : List Char}, [' ', ' '] <:+: l → hasDoubleSpace l = true := by
  intro l
  induction l with
  | nil =>
    rintro ⟨s, t, h⟩
    simp at h
  | cons c tl ih =>
    rintro ⟨s, t, h⟩
    cases s with
    | nil =>
      simp only [List.nil_append, List.cons_append, List.cons.injEq] at h
      obtain ⟨hc, hd⟩ := h
      subst hc
      rw [← hd]
      simp [hasDoubleSpace]
    | cons a s' =>
      simp only [List.cons_append, List.cons.injEq] at h
      exact hasDoubleSpace_cons_of_tail (ih ⟨s', t, h.2⟩)

theorem pyStrip_infix_self (l : List Char) : pyStrip l <:+: l := by
  have hsuf : List.dropWhile isWs l <:+ l := List.dropWhile_suffix _
  have hpre : pyStrip l <+: List.dropWhile isWs l := by
    have hs : List.dropWhile isWs (List.dropWhile isWs l).reverse <:+
        (List.dropWhile isWs l).reverse := List.dropWhile_suffix _
    have := List.reverse_prefix.mpr hs
    simpa [pyStrip] using this
  exact hpre.isInfix.trans hsuf.isInfix

theorem noDouble_mono {x y : List Char} (hin : y <:+: x)
    (hx : hasDoubleSpace x = false) : hasDoubleSpace y = false := by
  by_contra hy
  rw [Bool.not_eq_false] at hy
  have := hasDoubleSpace_of_infix ((infix_of_hasDoubleSpace hy).trans hin)
  rw [hx] at this
  cases this

theorem dropWhile_isWs_idem (l : List Char) :
    List.dropWhile isWs (List.dropWhile isWs l) = List.dropWhile isWs l := by
  induction l with
  | nil => rfl
  | cons c t ih =>
    by_cases h : isWs c
    · simp [List.dropWhile_cons, h, ih]
    · simp [List.dropWhile_cons, h]

theorem dropWhile_isWs_eq_self_of_prefix {x y : List Char}
    (hx : List.dropWhile isWs x = x) (hp : y <+: x) :
    List.dropWhile isWs y = y := by
  cases y with
  | nil => rfl
  | cons c t =>
    cases x with
    | nil =>
      obtain ⟨r, hr⟩ := hp
      simp at hr
    | cons a s =>
      have hca : c = a := by
        obtain ⟨r, hr⟩ := hp
        have := congrArg (List.head? ·) hr
        simpa using this
      by_cases hw : isWs a
      · exfalso
        rw [List.dropWhile_cons, if_pos hw] at hx
        have hlen := congrArg List.length hx
        have hle : (List.dropWhile isWs s).length ≤ s.length :=
          (List.dropWhile_sublist _).length_le
        simp only [List.length_cons] at hlen
        omega
      · rw [List.dropWhile_cons, if_neg (hca ▸ hw)]

theorem pyStrip_idem (l : List Char) : pyStrip (pyStrip l) = pyStrip l := by
  have hfixa : List.dropWhile isWs (List.dropWhile isWs l) = List.dropWhile isWs l :=
    dropWhile_isWs_idem l
  set a := List.dropWhile isWs l with ha
  set u := List.dropWhile isWs a.reverse with hu
  have hPdef : pyStrip l = u.reverse := rfl
  have hpre : u.reverse <+: a := by
    have hs : u <:+ a.reverse := hu ▸ List.dropWhile_suffix _
    have := List.reverse_prefix.mpr hs
    simpa using this
  have h1 : List.dropWhile isWs u.reverse = u.reverse :=
    dropWhile_isWs_eq_self_of_prefix hfixa hpre
  show ((List.dropWhile isWs (pyStrip l)).reverse.dropWhile isWs).reverse = pyStrip l
  rw [hPdef, h1]
  rw [List.reverse_reverse]
  show (List.dropWhile isWs (List.dropWhile isWs a.reverse)).reverse = u.reverse
  rw [dropWhile_isWs_idem]

theorem findallGo_eq_nil_of_noMark :
    ∀ (n : Nat) (s : List Char), hasNumMark s = false → findallGo n s = [] := by
  intro n
  induction n with
  | zero => intro s _; rfl
  | succ n ih =>
    intro s h
    cases s with
    | nil => rfl
    | cons c t =>
      rw [hasNumMark, Bool.or_eq_false_iff] at h
      have hnone : numTag (c :: t) = none := by
        cases hcase : numTag (c :: t) with
        | none => rfl
        | some rest => rw [hcase] at h; simp at h
      simp only [findallGo, hnone]
      exact ih t h.2

/-!
## The claims
-/

/-- **C1** (confirmed).  The deduplication step of `get_new_highlights`
keeps exactly the fetched highlights whose trimmed text is not in the
seen set, and running it again with the seen set extended by the trimmed
texts of the first result yields the empty list. -/
theorem dedup_exact_and_idempotent (H : List Highlight) (S : List String) :
    (∀ h, h ∈ dedup H S ↔ h ∈ H ∧ pyStripS h.text ∉ S) ∧
    dedup H (S ++ (dedup H S).map (fun h => pyStripS h.text)) = [] := by
  constructor
  · intro h
    simp [dedup, List.mem_filter]
  · rw [dedup, List.filter_eq_nil_iff]
    intro h hh
    simp only [decide_eq_true_eq, Decidable.not_not, List.mem_append, List.mem_map,
      not_forall, not_not]
    by_cases hS : pyStripS h.text ∈ S
    · exact Or.inl hS
    · refine Or.inr ⟨h, ?_, rfl⟩
      rw [dedup, List.mem_filter]
      exact ⟨hh, by simpa using hS⟩

/-- **C4** (corrected; counterexample `clean_post_printable_cex`).  The
output of `clean_post` contains no character outside the 7-bit ASCII
*range* (code points ≤ 127 — printability is not guaranteed: ASCII
control characters such as newlines and tabs survive), no run of two or
more consecutive spaces, and is trimmed of leading and trailing
whitespace. -/
theorem clean_post_charset (s : String) :
    (∀ c ∈ (clean_postS s).data, c.toNat ≤ 0x7F) ∧
    hasDoubleSpace (clean_postS s).data = false ∧
    pyStripS (clean_postS s) = clean_postS s := by
  refine ⟨fun c hc => clean_post_ascii hc, ?_, ?_⟩
  · show hasDoubleSpace (clean_post s.data) = false
    unfold clean_post
    exact noDouble_mono (pyStrip_infix_self _) (collapseSpaces_noDouble _)
  · show String.mk (pyStrip (clean_post s.data)) = String.mk (clean_post s.data)
    unfold clean_post
    rw [pyStrip_idem]

/-- The claim "no character outside the 7-bit ASCII printable range" is
false as stated: `clean_post` only removes characters above `\x7F`, so
the newline in `"a\nb"` (code point 10, below the printable range
32..126) survives to the output. -/
theorem clean_post_printable_cex :
    ¬ (∀ c ∈ (clean_postS "a\nb").data, 32 ≤ c.toNat ∧ c.toNat ≤ 126) := by
  decide

/-- **C5** (corrected; counterexample `readwise_429_aborts`).  Every
non-success response from the highlight source aborts the run fatally;
there is no rate-limit special case and no retry loop anywhere in
`get_new_highlights`. -/
theorem readwise_non200_fatal :
    (∀ (status : Nat) (text : String), status ≠ 200 →
      readwiseStatusCheck status text =
        Except.error ("Readwise API error: " ++ toString status ++ " - " ++ text)) ∧
    (∀ text : String, readwiseStatusCheck 200 text = Except.ok ()) := by
  constructor
  · intro status text h
    simp [readwiseStatusCheck, h]
  · intro text
    simp [readwiseStatusCheck]

theorem readwise_non200_fatal_witness :
    (429 ≠ 200) ∧
    readwiseStatusCheck 429 "rate limited" =
      Except.error ("Readwise API error: " ++ toString 429 ++ " - " ++ "rate limited") :=
  ⟨by decide, readwise_non200_fatal.1 429 "rate limited" (by decide)⟩

/-- A rate-limit (HTTP 429) response is *not* retried: the status check
of `get_new_highlights` raises on it exactly as on any other non-200
status, refuting the claimed backoff-and-retry special case. -/
theorem readwise_429_aborts :
    readwiseStatusCheck 429 "Too Many Requests" =
      Except.error "Readwise API error: 429 - Too Many Requests" := by
  rfl

/-- **C8** (confirmed).  The numbered-list parse of `generate_posts`
maps `"1. Alpha\n2. Beta\n3. Gamma"` to exactly
`["Alpha", "Beta", "Gamma"]`, and any reply containing no numbered-item
marker parses to the empty list. -/
theorem generate_posts_parse :
    parse_posts "1. Alpha\n2. Beta\n3. Gamma" = ["Alpha", "Beta", "Gamma"] ∧
    ∀ raw : String, hasNumMark raw.data = false → parse_posts raw = [] := by
  constructor
  · decide
  · intro raw h
    unfold parse_posts findallNum
    rw [findallGo_eq_nil_of_noMark _ _ h]
    rfl

theorem generate_posts_parse_witness :
    hasNumMark "The model returned no list today.".data = false ∧
    parse_posts "The model returned no list today." = [] :=
  ⟨by decide, generate_posts_parse.2 _ (by decide)⟩

theorem run_generate_pending_some (st : ProgState) (bid title : String)
    (hls posts : List String) (standalone : String) (ivT : Option (List String))
    (hne : hls ≠ []) :
    (run_generate st (some (bid, title, hls)) posts standalone ivT).pending_tweets =
      (List.enum posts).map (fun ip =>
        { order := ip.1, text := ip.2, posted := false, tweet_id := none,
          book_id := some bid, book_title := some title, kind := "book" }) ++
      [{ order := posts.length, text := standalone, posted := false,
         tweet_id := none, book_id := some bid, book_title := some title,
         kind := "standalone" }] := by
  cases ivT with
  | none => simp [run_generate, hne]
  | some ts => simp [run_generate, hne]

/-- **C2** (confirmed).  A generate run that found new highlights
assigns `pending_tweets` wholesale: the saved queue has exactly one
entry per generated post plus the standalone entry, all fresh
(`posted = False`, no tweet id, tagged with the new book), and any item
of the previously loaded queue whose text is not among the freshly
generated ones is gone from the saved state. -/
theorem run_generate_replaces_queue (st : ProgState) (bid title : String)
    (hls posts : List String) (standalone : String) (ivT : Option (List String))
    (hne : hls ≠ []) :
    ((run_generate st (some (bid, title, hls)) posts standalone ivT).pending_tweets.length
      = posts.length + 1) ∧
    (∀ p ∈ (run_generate st (some (bid, title, hls)) posts standalone ivT).pending_tweets,
      p.posted = false ∧ p.tweet_id = none ∧ p.book_id = some bid ∧
        (p.text ∈ posts ∨ p.text = standalone)) ∧
    (∀ p ∈ st.pending_tweets, p.text ∉ posts → p.text ≠ standalone →
      p ∉ (run_generate st (some (bid, title, hls)) posts standalone ivT).pending_tweets) := by
  rw [run_generate_pending_some st bid title hls posts standalone ivT hne]
  have hmem : ∀ p : PendingPost,
      p ∈ (List.enum posts).map (fun ip =>
        ({ order := ip.1, text := ip.2, posted := false, tweet_id := none,
           book_id := some bid, book_title := some title, kind := "book" } : PendingPost)) ++
      [{ order := posts.length, text := standalone, posted := false,
         tweet_id := none, book_id := some bid, book_title := some title,
         kind := "standalone" }] →
      p.posted = false ∧ p.tweet_id = none ∧ p.book_id = some bid ∧
        (p.text ∈ posts ∨ p.text = standalone) := by
    intro p hp
    rcases List.mem_append.mp hp with hp | hp
    · obtain ⟨ip, hip, rfl⟩ := List.mem_map.mp hp
      refine ⟨rfl, rfl, rfl, Or.inl ?_⟩
      have : ip.2 ∈ posts.enum.map Prod.snd := List.mem_map_of_mem Prod.snd hip
      rwa [List.enum_map_snd] at this
    · rw [List.mem_singleton.mp hp]
      exact ⟨rfl, rfl, rfl, Or.inr rfl⟩
  refine ⟨by simp, hmem, ?_⟩
  intro p _ hnp hns hmem'
  rcases (hmem p hmem').2.2.2 with h | h
  · exact hnp h
  · exact hns h

theorem run_generate_replaces_queue_witness :
    (["A"] ≠ ([] : List String)) ∧
    sampleOldPost ∉
      (run_generate sampleState (some ("42", "T", ["A"])) ["P1"] "S" none).pending_tweets :=
  ⟨by decide,
    (run_generate_replaces_queue sampleState "42" "T" ["A"] ["P1"] "S" none
      (by decide)).2.2 sampleOldPost (by decide) (by decide) (by decide)⟩

theorem btLookup_append_of_none (bts : List (Option String × BookThread))
    (k : Option String) (v : BookThread) (h : btLookup bts k = none) :
    btLookup (bts ++ [(k, v)]) k = some v := by
  induction bts with
  | nil => simp [btLookup]
  | cons p rest ih =>
    rw [btLookup] at h
    rw [List.cons_append, btLookup]
    split at h
    · exact absurd h (by simp)
    · rw [if_neg (by assumption)]
      exact ih h

theorem btLookup_map_update (bts : List (Option String × BookThread))
    (k : Option String) (tid : String) (bt : BookThread)
    (h : btLookup bts k = some bt) :
    btLookup (bts.map (fun p =>
        if p.1 = k then (p.1, { p.2 with last_tweet_id := tid }) else p)) k =
      some { bt with last_tweet_id := tid } := by
  induction bts with
  | nil => simp [btLookup] at h
  | cons p rest ih =>
    rw [btLookup] at h
    by_cases hk : p.1 = k
    · rw [if_pos hk] at h
      cases h
      rw [List.map_cons, if_pos hk, btLookup, if_pos hk]
    · rw [if_neg hk] at h
      rw [List.map_cons, if_neg hk, btLookup, if_neg hk]
      exact ih h

/-- **C3** (confirmed).  When `run_post` publishes a book item and no
`BookThread` record exists for its book id, the saved state has a fresh
record with `first_tweet_id = last_tweet_id =` the new tweet id (and the
item's title); when a record already exists, only `last_tweet_id`
changes — `title` and `first_tweet_id` are carried over unchanged. -/
theorem run_post_thread_continuity (st : ProgState) (tid : String)
    (tweet : PendingPost) (rest : List PendingPost) (st' : ProgState)
    (hsel : bookUnposted st = tweet :: rest)
    (hrun : run_post st (Except.ok tid) = (st', Except.ok ())) :
    (btLookup st.book_threads tweet.book_id = none →
      btLookup st'.book_threads tweet.book_id =
        some { title := tweet.book_title, first_tweet_id := tid, last_tweet_id := tid }) ∧
    (∀ bt, btLookup st.book_threads tweet.book_id = some bt →
      btLookup st'.book_threads tweet.book_id =
        some { title := bt.title, first_tweet_id := bt.first_tweet_id,
               last_tweet_id := tid }) := by
  rw [run_post, hsel] at hrun
  have hst' : st' =
      { st with
        pending_tweets := st.pending_tweets.map (fun t =>
          if t.order = tweet.order then { t with posted := true, tweet_id := some tid }
          else t),
        book_threads := updateThreads st.book_threads tweet.book_id tweet.book_title tid } := by
    have := congrArg Prod.fst hrun
    simp only at this
    exact this.symm
  subst hst'
  constructor
  · intro hnone
    show btLookup (updateThreads st.book_threads tweet.book_id tweet.book_title tid)
      tweet.book_id = _
    rw [updateThreads, hnone]
    exact btLookup_append_of_none _ _ _ hnone
  · intro bt hsome
    show btLookup (updateThreads st.book_threads tweet.book_id tweet.book_title tid)
      tweet.book_id = _
    rw [updateThreads, hsome]
    exact btLookup_map_update _ _ _ _ hsome

theorem run_post_thread_continuity_witness :
    bookUnposted sampleState = [sampleOldPost] ∧
    btLookup (run_post sampleState (Except.ok "100")).1.book_threads
        sampleOldPost.book_id =
      some { title := sampleOldPost.book_title, first_tweet_id := "100",
             last_tweet_id := "100" } :=
  ⟨rfl,
    (run_post_thread_continuity sampleState "100" sampleOldPost []
      (run_post sampleState (Except.ok "100")).1 rfl rfl).1 rfl⟩

/-- **C6** (confirmed).  When the publish call fails, `run_post`
propagates the error and the persisted state is exactly the loaded one:
the selected item is still the first unposted book item (still
`posted = False`), and no thread pointer moved — so a re-invocation
attempts the same item again. -/
theorem run_post_failure_preserves_state (st : ProgState) (e : String)
    (tweet : PendingPost) (rest : List PendingPost)
    (hsel : bookUnposted st = tweet :: rest) :
    run_post st (Except.error e) = (st, Except.error e) ∧
    bookUnposted (run_post st (Except.error e)).1 = tweet :: rest ∧
    tweet.posted = false := by
  have h1 : run_post st (Except.error e) = (st, Except.error e) := by
    rw [run_post, hsel]
  refine ⟨h1, by rw [h1]; exact hsel, ?_⟩
  have : tweet ∈ bookUnposted st := by rw [hsel]; exact List.mem_cons_self _ _
  have := List.mem_filter.mp this
  simpa using ((Bool.and_eq_true _ _).mp this.2).1

theorem run_post_failure_preserves_state_witness :
    bookUnposted sampleState = [sampleOldPost] ∧
    run_post sampleState (Except.error "HTTP 500") =
      (sampleState, Except.error "HTTP 500") :=
  ⟨rfl, (run_post_failure_preserves_state sampleState "HTTP 500" sampleOldPost []
    rfl).1⟩

/-- **C10** (confirmed).  When every fetched highlight is already seen
(or nothing was fetched), `get_new_highlights` reports nothing new, and
the generate run leaves both `seen_highlights` and the book
`pending_tweets` queue exactly as loaded — last cycle's unposted items
are kept, not cleared. -/
theorem run_generate_no_new_frame (st : ProgState) (results : List Highlight)
    (title : String) (posts : List String) (standalone : String)
    (ivT : Option (List String))
    (hseen : results = [] ∨ ∀ h ∈ results, pyStripS h.text ∈ st.seen_highlights) :
    get_new_highlights_core results st.seen_highlights = none ∧
    (run_generate st
        ((get_new_highlights_core results st.seen_highlights).map
          (fun bh => (bh.1, title, bh.2))) posts standalone ivT).seen_highlights
      = st.seen_highlights ∧
    (run_generate st
        ((get_new_highlights_core results st.seen_highlights).map
          (fun bh => (bh.1, title, bh.2))) posts standalone ivT).pending_tweets
      = st.pending_tweets := by
  have hcore : get_new_highlights_core results st.seen_highlights = none := by
    rcases hseen with rfl | hall
    · rfl
    · rw [get_new_highlights_core]
      by_cases hres : results = []
      · rw [if_pos hres]
      · rw [if_neg hres]
        have hded : dedup results st.seen_highlights = [] := by
          rw [dedup, List.filter_eq_nil_iff]
          intro h hh
          simpa using hall h hh
        simp only [hded]
        rfl
  rw [hcore]
  refine ⟨rfl, ?_, ?_⟩ <;> · unfold run_generate; cases ivT <;> rfl

theorem pickMax_mem :
    ∀ (l : List (String × BookGroup)) (b : String × BookGroup), pickMax b l ∈ b :: l := by
  intro l
  induction l with
  | nil => intro b; simp [pickMax]
  | cons x rest ih =>
    intro b
    rw [pickMax]
    rcases List.mem_cons.mp (ih (if b.2.latest < x.2.latest then x else b)) with h | h
    · rw [h]
      by_cases hbx : b.2.latest < x.2.latest
      · rw [if_pos hbx]
        exact List.mem_cons_of_mem _ (List.mem_cons_self _ _)
      · rw [if_neg hbx]
        exact List.mem_cons_self _ _
    · exact List.mem_cons_of_mem _ (List.mem_cons_of_mem _ h)

theorem pickMax_ge :
    ∀ (l : List (String × BookGroup)) (b : String × BookGroup),
      ∀ p ∈ b :: l, p.2.latest ≤ (pickMax b l).2.latest := by
  intro l
  induction l with
  | nil =>
    intro b p hp
    rcases List.mem_cons.mp hp with rfl | h
    · exact le_refl _
    · simp at h
  | cons x rest ih =>
    intro b p hp
    rw [pickMax]
    have hbc : b.2.latest ≤ (if b.2.latest < x.2.latest then x else b).2.latest := by
      by_cases hbx : b.2.latest < x.2.latest
      · rw [if_pos hbx]; exact le_of_lt hbx
      · rw [if_neg hbx]
    have hxc : x.2.latest ≤ (if b.2.latest < x.2.latest then x else b).2.latest := by
      by_cases hbx : b.2.latest < x.2.latest
      · rw [if_pos hbx]
      · rw [if_neg hbx]; exact le_of_not_lt hbx
    have hhead := ih (if b.2.latest < x.2.latest then x else b) _ (List.mem_cons_self _ _)
    rcases List.mem_cons.mp hp with rfl | hp
    · exact le_trans hbc hhead
    rcases List.mem_cons.mp hp with rfl | hp
    · exact le_trans hxc hhead
    · exact ih _ p (List.mem_cons_of_mem _ hp)

theorem insertHL_shape (bid txt ts : String) :
    ∀ (books : List (String × BookGroup)), ∀ q ∈ insertHL books bid txt ts,
      q ∈ books ∨
      (∃ g, (bid, g) ∈ books ∧
        q = (bid, { highlights := g.highlights ++ [txt],
                    latest := if g.latest < ts then ts else g.latest })) ∨
      q = (bid, { highlights := [txt], latest := ts }) := by
  intro books
  induction books with
  | nil =>
    intro q hq
    right; right
    simpa [insertHL] using hq
  | cons p rest ih =>
    obtain ⟨k, g⟩ := p
    intro q hq
    rw [insertHL] at hq
    by_cases hk : k = bid
    · subst hk
      rw [if_pos rfl] at hq
      rcases List.mem_cons.mp hq with rfl | hq
      · exact Or.inr (Or.inl ⟨g, List.mem_cons_self _ _, rfl⟩)
      · exact Or.inl (List.mem_cons_of_mem _ hq)
    · rw [if_neg hk] at hq
      rcases List.mem_cons.mp hq with rfl | hq
      · exact Or.inl (List.mem_cons_self _ _)
      · rcases ih q hq with h | ⟨g', hg', he⟩ | he
        · exact Or.inl (List.mem_cons_of_mem _ h)
        · exact Or.inr (Or.inl ⟨g', List.mem_cons_of_mem _ hg', he⟩)
        · exact Or.inr (Or.inr he)

theorem insertHL_mono (bid txt ts : String) :
    ∀ (books : List (String × BookGroup)), ∀ q ∈ books,
      ∃ q' ∈ insertHL books bid txt ts, q'.1 = q.1 ∧ q.2.latest ≤ q'.2.latest := by
  intro books
  induction books with
  | nil => intro q hq; simp at hq
  | cons p rest ih =>
    obtain ⟨k, g⟩ := p
    intro q hq
    by_cases hk : k = bid
    · subst hk
      rcases List.mem_cons.mp hq with rfl | hq
      · refine ⟨(k, { highlights := g.highlights ++ [txt],
                      latest := if g.latest < ts then ts else g.latest }), ?_, rfl, ?_⟩
        · rw [insertHL, if_pos rfl]
          exact List.mem_cons_self _ _
        · by_cases hlt : g.latest < ts
          · rw [if_pos hlt]; exact le_of_lt hlt
          · rw [if_neg hlt]
      · refine ⟨q, ?_, rfl, le_refl _⟩
        rw [insertHL, if_pos rfl]
        exact List.mem_cons_of_mem _ hq
    · rcases List.mem_cons.mp hq with rfl | hq
      · refine ⟨(k, g), ?_, rfl, le_refl _⟩
        rw [insertHL, if_neg hk]
        exact List.mem_cons_self _ _
      · obtain ⟨q', hq', h1, h2⟩ := ih q hq
        refine ⟨q', ?_, h1, h2⟩
        rw [insertHL, if_neg hk]
        exact List.mem_cons_of_mem _ hq'

theorem insertHL_self (bid txt ts : String) :
    ∀ (books : List (String × BookGroup)),
      ∃ q ∈ insertHL books bid txt ts, q.1 = bid ∧ ts ≤ q.2.latest := by
  intro books
  induction books with
  | nil =>
    exact ⟨(bid, { highlights := [txt], latest := ts }),
      by rw [insertHL]; exact List.mem_cons_self _ _, rfl, le_refl _⟩
  | cons p rest ih =>
    obtain ⟨k, g⟩ := p
    by_cases hk : k = bid
    · subst hk
      refine ⟨(k, { highlights := g.highlights ++ [txt],
                    latest := if g.latest < ts then ts else g.latest }), ?_, rfl, ?_⟩
      · rw [insertHL, if_pos rfl]
        exact List.mem_cons_self _ _
      · by_cases hlt : g.latest < ts
        · rw [if_pos hlt]
        · rw [if_neg hlt]; exact le_of_not_lt hlt
    · obtain ⟨q, hq, h1, h2⟩ := ih
      refine ⟨q, ?_, h1, h2⟩
      rw [insertHL, if_neg hk]
      exact List.mem_cons_of_mem _ hq

theorem buildBooks_bound (hs : List Highlight) :
    ∀ (acc : List (String × BookGroup)) (processed : List Highlight),
      (∀ h' ∈ processed, ∃ q ∈ acc, q.1 = h'.book_id ∧ hlTs h' ≤ q.2.latest) →
      ∀ h' ∈ processed ++ hs,
        ∃ q ∈ hs.foldl (fun b h => insertHL b h.book_id (pyStripS h.text) (hlTs h)) acc,
          q.1 = h'.book_id ∧ hlTs h' ≤ q.2.latest := by
  induction hs with
  | nil =>
    intro acc processed hp h' hh'
    rw [List.append_nil] at hh'
    exact hp h' hh'
  | cons h t ih =>
    intro acc processed hp h' hh'
    rw [List.foldl_cons]
    refine ih _ (processed ++ [h]) ?_ h' (by simpa [List.append_assoc] using hh')
    intro h'' hh''
    rcases List.mem_append.mp hh'' with hin | hin
    · obtain ⟨q, hq, h1, h2⟩ := hp h'' hin
      obtain ⟨q', hq', he, hle⟩ := insertHL_mono h.book_id (pyStripS h.text) (hlTs h) acc q hq
      exact ⟨q', hq', by rw [he, h1], le_trans h2 hle⟩
    · rw [List.mem_singleton.mp hin]
      exact insertHL_self h.book_id (pyStripS h.text) (hlTs h) acc

theorem buildBooks_attained (hs : List Highlight) :
    ∀ (acc : List (String × BookGroup)) (processed : List Highlight),
      (∀ q ∈ acc, ∃ h' ∈ processed, h'.book_id = q.1 ∧ hlTs h' = q.2.latest) →
      ∀ q ∈ hs.foldl (fun b h => insertHL b h.book_id (pyStripS h.text) (hlTs h)) acc,
        ∃ h' ∈ processed ++ hs, h'.book_id = q.1 ∧ hlTs h' = q.2.latest := by
  induction hs with
  | nil =>
    intro acc processed hp q hq
    rw [List.append_nil]
    exact hp q hq
  | cons h t ih =>
    intro acc processed hp q hq
    rw [List.foldl_cons] at hq
    have := ih _ (processed ++ [h]) ?_ q hq
    · simpa [List.append_assoc] using this
    intro q' hq'
    rcases insertHL_shape h.book_id (pyStripS h.text) (hlTs h) acc q' hq'
      with hin | ⟨g, hg, rfl⟩ | rfl
    · obtain ⟨h', hh', e1, e2⟩ := hp q' hin
      exact ⟨h', List.mem_append_left _ hh', e1, e2⟩
    · by_cases hlt : g.latest < hlTs h
      · refine ⟨h, List.mem_append_right _ (List.mem_singleton_self _), rfl, ?_⟩
        show hlTs h = if g.latest < hlTs h then hlTs h else g.latest
        rw [if_pos hlt]
      · obtain ⟨h', hh', e1, e2⟩ := hp (h.book_id, g) hg
        refine ⟨h', List.mem_append_left _ hh', e1, ?_⟩
        show hlTs h' = if g.latest < hlTs h then hlTs h else g.latest
        rw [if_neg hlt]
        exact e2
    · exact ⟨h, List.mem_append_right _ (List.mem_singleton_self _), rfl, rfl⟩

/-- **C7** (confirmed).  The grouping step's selected book is one of the
candidate groups, its `latest` is greatest among all groups, every
highlight's timestamp is bounded by its own group's `latest`, and every
group's `latest` is attained by one of its highlights — together: the
selected book's maximum `highlighted_at`/`updated` timestamp over its
unseen highlights is ≥ the maximum of every other candidate book. -/
theorem grouping_selects_most_recent (hs : List Highlight)
    (g : String × BookGroup) (gs : List (String × BookGroup))
    (hbb : buildBooks hs = g :: gs) :
    pickMax g gs ∈ g :: gs ∧
    (∀ p ∈ g :: gs, p.2.latest ≤ (pickMax g gs).2.latest) ∧
    (∀ h ∈ hs, ∃ q ∈ g :: gs, q.1 = h.book_id ∧ hlTs h ≤ q.2.latest) ∧
    (∀ p ∈ g :: gs, ∃ h ∈ hs, h.book_id = p.1 ∧ hlTs h = p.2.latest) := by
  refine ⟨pickMax_mem gs g, pickMax_ge gs g, ?_, ?_⟩
  · intro h hh
    have := buildBooks_bound hs [] [] (by simp) h (by simpa using hh)
    rw [show hs.foldl (fun b h => insertHL b h.book_id (pyStripS h.text) (hlTs h)) [] =
      buildBooks hs from rfl, hbb] at this
    exact this
  · intro p hp
    rw [← hbb] at hp
    have := buildBooks_attained hs [] [] (by simp) p hp
    simpa using this

theorem grouping_selects_most_recent_witness :
    buildBooks sampleHs =
      ("1", { highlights := ["a"], latest := "2024-01-01" }) ::
        [("2", { highlights := ["b"], latest := "2024-02-01" })] ∧
    pickMax ("1", { highlights := ["a"], latest := "2024-01-01" })
        [("2", { highlights := ["b"], latest := "2024-02-01" })] ∈
      ("1", { highlights := ["a"], latest := "2024-01-01" }) ::
        [("2", { highlights := ["b"], latest := "2024-02-01" })] :=
  ⟨by decide, (grouping_selects_most_recent sampleHs _ _ (by decide)).1⟩

theorem run_generate_no_new_frame_witness :
    (∀ h ∈ sampleResults, pyStripS h.text ∈ sampleState.seen_highlights) ∧
    get_new_highlights_core sampleResults sampleState.seen_highlights = none ∧
    (run_generate sampleState
        ((get_new_highlights_core sampleResults sampleState.seen_highlights).map
          (fun bh => (bh.1, "T", bh.2))) ["P1"] "S" none).pending_tweets
      = sampleState.pending_tweets :=
  ⟨by decide,
    (run_generate_no_new_frame sampleState sampleResults "T" ["P1"] "S" none
      (Or.inr (by decide))).1,
    (run_generate_no_new_frame sampleState sampleResults "T" ["P1"] "S" none
      (Or.inr (by decide))).2.2⟩

theorem fresh_book_posted_false (posts : List String) (sa bid title : String)
    (p : PendingPost)
    (hp : p ∈ (List.enum posts).map (fun ip =>
        ({ order := ip.1, text := ip.2, posted := false, tweet_id := none,
           book_id := some bid, book_title := some title, kind := "book" } : PendingPost)) ++
      [{ order := posts.length, text := sa, posted := false, tweet_id := none,
         book_id := some bid, book_title := some title, kind := "standalone" }]) :
    p.posted = false := by
  rcases List.mem_append.mp hp with hp | hp
  · obtain ⟨ip, _, rfl⟩ := List.mem_map.mp hp
    rfl
  · rw [List.mem_singleton.mp hp]

theorem run_generate_pending_cases (st : ProgState)
    (fetch : Option (String × String × List String)) (posts : List String)
    (sa : String) (ivT : Option (List String)) :
    ∀ p ∈ (run_generate st fetch posts sa ivT).pending_tweets,
      p ∈ st.pending_tweets ∨ p.posted = false := by
  intro p hp
  rcases fetch with _ | ⟨bid, title, hls⟩
  · left
    have hsame : (run_generate st none posts sa ivT).pending_tweets
        = st.pending_tweets := by
      unfold run_generate
      cases ivT <;> rfl
    rwa [hsame] at hp
  · by_cases hnil : hls = []
    · left
      have hsame : (run_generate st (some (bid, title, hls)) posts sa ivT).pending_tweets
          = st.pending_tweets := by
        subst hnil
        cases ivT <;> simp [run_generate]
      rwa [hsame] at hp
    · right
      rw [run_generate_pending_some st bid title hls posts sa ivT hnil] at hp
      exact fresh_book_posted_false posts sa bid title p hp

theorem run_generate_iv_cases (st : ProgState)
    (fetch : Option (String × String × List String)) (posts : List String)
    (sa : String) (ivT : Option (List String)) :
    ∀ p ∈ (run_generate st fetch posts sa ivT).interview_pending,
      p ∈ st.interview_pending ∨ p.posted = false := by
  intro p hp
  rcases ivT with _ | ts
  · left
    have hsame : (run_generate st fetch posts sa none).interview_pending
        = st.interview_pending := by
      unfold run_generate
      rcases fetch with _ | ⟨bid, title, hls⟩
      · rfl
      · by_cases hnil : hls = [] <;> simp [hnil]
    rwa [hsame] at hp
  · right
    have hiv : (run_generate st fetch posts sa (some ts)).interview_pending
        = (List.enum ts).map (fun ip =>
            ({ order := ip.1, text := ip.2, posted := false, tweet_id := none,
               book_id := none, book_title := none, kind := "interview" } : PendingPost)) := by
      unfold run_generate
      rcases fetch with _ | ⟨bid, title, hls⟩
      · rfl
      · by_cases hnil : hls = [] <;> simp [hnil]
    rw [hiv] at hp
    obtain ⟨ip, _, rfl⟩ := List.mem_map.mp hp
    rfl

theorem run_post_iv_unchanged (st : ProgState) (pub : Except String String) :
    (run_post st pub).1.interview_pending = st.interview_pending := by
  unfold run_post
  cases hsel : bookUnposted st with
  | nil => rfl
  | cons tweet rest => cases pub <;> rfl

theorem run_post_pending_cases (st : ProgState) (pub : Except String String) :
    ∀ p ∈ (run_post st pub).1.pending_tweets,
      p ∈ st.pending_tweets ∨ p.tweet_id ≠ none := by
  intro p hp
  rw [run_post] at hp
  cases hsel : bookUnposted st with
  | nil => rw [hsel] at hp; exact Or.inl hp
  | cons tweet rest =>
    rw [hsel] at hp
    cases pub with
    | error e => exact Or.inl hp
    | ok tid =>
      simp only at hp
      obtain ⟨t, ht, rfl⟩ := List.mem_map.mp hp
      by_cases hc : t.order = tweet.order
      · rw [if_pos hc]
        exact Or.inr (by simp)
      · rw [if_neg hc]
        exact Or.inl ht

theorem run_post_interview_pending_unchanged (st : ProgState)
    (pub : Except String String) :
    (run_post_interview st pub).1.pending_tweets = st.pending_tweets := by
  unfold run_post_interview
  cases hsel : ivUnposted st with
  | nil => rfl
  | cons tweet rest => cases pub <;> rfl

theorem run_post_interview_iv_cases (st : ProgState) (pub : Except String String) :
    ∀ p ∈ (run_post_interview st pub).1.interview_pending,
      p ∈ st.interview_pending ∨ p.tweet_id ≠ none := by
  intro p hp
  rw [run_post_interview] at hp
  cases hsel : ivUnposted st with
  | nil => rw [hsel] at hp; exact Or.inl hp
  | cons tweet rest =>
    rw [hsel] at hp
    cases pub with
    | error e => exact Or.inl hp
    | ok tid =>
      simp only at hp
      obtain ⟨t, ht, rfl⟩ := List.mem_map.mp hp
      by_cases hc : t.order = tweet.order
      · rw [if_pos hc]
        exact Or.inr (by simp)
      · rw [if_neg hc]
        exact Or.inl ht

theorem run_post_standalone_iv_unchanged (st : ProgState)
    (pub : Except String String) :
    (run_post_standalone st pub).1.interview_pending = st.interview_pending := by
  unfold run_post_standalone
  cases hsel : saUnposted st with
  | nil => rfl
  | cons tweet rest => cases pub <;> rfl

theorem run_post_standalone_pending_cases (st : ProgState)
    (pub : Except String String) :
    ∀ p ∈ (run_post_standalone st pub).1.pending_tweets,
      p ∈ st.pending_tweets ∨ p.tweet_id ≠ none := by
  intro p hp
  rw [run_post_standalone] at hp
  cases hsel : saUnposted st with
  | nil => rw [hsel] at hp; exact Or.inl hp
  | cons tweet rest =>
    rw [hsel] at hp
    cases pub with
    | error e => exact Or.inl hp
    | ok tid =>
      simp only at hp
      obtain ⟨t, ht, rfl⟩ := List.mem_map.mp hp
      by_cases hc : t.order = tweet.order ∧ t.kind = "standalone"
      · rw [if_pos hc]
        exact Or.inr (by simp)
      · rw [if_neg hc]
        exact Or.inl ht

/-- **C9** (confirmed).  In every state reachable through the generate
and post operations, a pending item marked `posted` always carries a
tweet id (the marking loops set the two together), and each publish
mode only ever selects items with `posted = False` — combined, an item
is published at most once and `posted = True` implies `post_id` is
set. -/
theorem posted_implies_tweet_id :
    (∀ st, Reachable st → pendingInv st) ∧
    (∀ st : ProgState, ∀ t ∈ bookUnposted st, t.posted = false) ∧
    (∀ st : ProgState, ∀ t ∈ ivUnposted st, t.posted = false) ∧
    (∀ st : ProgState, ∀ t ∈ saUnposted st, t.posted = false) := by
  refine ⟨?_, ?_, ?_, ?_⟩
  · intro st hreach
    induction hreach with
    | refl =>
      intro p hp _
      rcases hp with hp | hp <;> simp [initState] at hp
    | tail hsteps hstep ih =>
      cases hstep with
      | gen fetch posts sa ivT =>
        intro p hp hposted
        rcases hp with hp | hp
        · rcases run_generate_pending_cases _ fetch posts sa ivT p hp with h | h
          · exact ih p (Or.inl h) hposted
          · rw [h] at hposted; cases hposted
        · rcases run_generate_iv_cases _ fetch posts sa ivT p hp with h | h
          · exact ih p (Or.inr h) hposted
          · rw [h] at hposted; cases hposted
      | post pub =>
        intro p hp hposted
        rcases hp with hp | hp
        · rcases run_post_pending_cases _ pub p hp with h | h
          · exact ih p (Or.inl h) hposted
          · exact h
        · rw [run_post_iv_unchanged _ pub] at hp
          exact ih p (Or.inr hp) hposted
      | postInterview pub =>
        intro p hp hposted
        rcases hp with hp | hp
        · rw [run_post_interview_pending_unchanged _ pub] at hp
          exact ih p (Or.inl hp) hposted
        · rcases run_post_interview_iv_cases _ pub p hp with h | h
          · exact ih p (Or.inr h) hposted
          · exact h
      | postStandalone pub =>
        intro p hp hposted
        rcases hp with hp | hp
        · rcases run_post_standalone_pending_cases _ pub p hp with h | h
          · exact ih p (Or.inl h) hposted
          · exact h
        · rw [run_post_standalone_iv_unchanged _ pub] at hp
          exact ih p (Or.inr hp) hposted
  · intro st t ht
    have := (List.mem_filter.mp ht).2
    simpa using ((Bool.and_eq_true _ _).mp this).1
  · intro st t ht
    have := (List.mem_filter.mp ht).2
    simpa using this
  · intro st t ht
    have := (List.mem_filter.mp ht).2
    simpa using ((Bool.and_eq_true _ _).mp this).1

theorem posted_implies_tweet_id_witness :
    pendingInv ((run_post
        (run_generate initState (some ("42", "T", ["A"])) ["P1"] "S" none)
        (Except.ok "99")).1) :=
  posted_implies_tweet_id.1 _
    (Relation.ReflTransGen.tail
      (Relation.ReflTransGen.tail Relation.ReflTransGen.refl
        (Step.gen initState (some ("42", "T", ["A"])) ["P1"] "S" none))
      (Step.post (run_generate initState (some ("42", "T", ["A"])) ["P1"] "S" none)
        (Except.ok "99")))
